import Mathlib

set_option maxHeartbeats 1000000

/-!
Shallow embedding of the metadata reconciliation engine of the sentinelnode
repository (scripts/enrich_with_doi.py and scripts/run_pipeline.py).

Text is modelled as Lean `String`/`List Char`; the Python regex character
classes are modelled at ASCII level (the inputs of interest are ASCII).
Network adapters (Crossref lookup/search, the OpenAI comparator) are modelled
by passing their results, or the oracle function itself, as parameters:
each adapter is a pure function of its query in the embedding.
Python dictionary fields that may be absent or empty are modelled as `String`
with `""` for absent (Python truthiness collapses both), lists with `[]`,
and genuinely three-valued fields as `Option`.
-/

namespace SentinelNode

/-- ASCII model of Python's regex class `\s` (space, tab, newline, carriage
return, vertical tab, form feed). -/
def wsChar (c : Char) : Bool :=
  c = ' ' || c = '\t' || c = '\n' || c = '\r' || c = '\x0b' || c = '\x0c'

/-- ASCII model of Python's regex class `\w` (letters, digits, underscore). -/
def isWordChar (c : Char) : Bool := c.isAlphanum || c = '_'

/-! ### `re.sub(r"<[^>]+>", repl, s)` — removal of markup tags

A match of `<[^>]+>` starts at a `'<'` and runs to the first later `'>'`,
provided at least one character lies strictly between them; matches are
non-overlapping and replaced left to right.  Equivalently: split the text at
every `'>'`; in each segment that is followed by a `'>'` delimiter, the first
`'<'` that is not the last character of the segment starts a match that
consumes the rest of the segment together with the delimiting `'>'`; a
segment with no such `'<'` passes through unchanged with its delimiter.  The
final segment (after the last `'>'`) can contain no match. -/

/-- Split a character list at every `'>'` (the delimiters are dropped;
a list with `n` occurrences of `'>'` yields `n + 1` segments). -/
def splitGt : List Char → List (List Char)
  | [] => [[]]
  | c :: rest =>
    if c = '>' then [] :: splitGt rest
    else (splitGt rest).modifyHead (fun s => c :: s)

/-- Process one segment that is followed by a `'>'` delimiter: if the
segment contains a `'<'` that is not its last character, the match from that
`'<'` through the delimiting `'>'` is replaced by `repl`; otherwise the
segment and its delimiter pass through. -/
def procSeg (repl : List Char) : List Char → List Char
  | [] => ['>']
  | c :: rest =>
    if c = '<' then
      match rest with
      | [] => ['<', '>']
      | _ :: _ => repl
    else c :: procSeg repl rest

/-- Reassemble the processed segments; the last segment has no following
delimiter and passes through unchanged. -/
def joinSegs (repl : List Char) : List (List Char) → List Char
  | [] => []
  | [seg] => seg
  | seg :: rest => procSeg repl seg ++ joinSegs repl rest

/-- `re.sub(r"<[^>]+>", repl, s)` on character lists. -/
def removeTags (repl : List Char) (l : List Char) : List Char :=
  joinSegs repl (splitGt l)

/-! ### The jats-token pass: `re.sub(r"\b[jJ]ats:[A-Za-z0-9_-]+\b", " ", s)` -/

/-- The character class `[A-Za-z0-9_-]` of the jats-token regex. -/
def jatsClassChar (c : Char) : Bool := c.isAlphanum || c = '_' || c = '-'

/-- Is there a word boundary between a character and the (optional) character
following it?  (End of string counts as a non-word position.) -/
def xorWord (c : Char) : Option Char → Bool
  | none => isWordChar c
  | some x => isWordChar c != isWordChar x

/-- Greedy-with-backtracking tail of a `⟨class⟩+\b` regex piece: given the
reversed maximal class run and the character following the run, return the
longest nonempty prefix of the run whose end sits on a word boundary
(reversed input; the result is returned in original order). -/
def shrinkGo : List Char → Option Char → Option (List Char)
  | [], _ => none
  | c :: restRev, nxt =>
    if xorWord c nxt then some ((c :: restRev).reverse)
    else shrinkGo restRev (some c)

/-- Longest nonempty prefix of `run` ending on a word boundary, where `next`
is the character following the full run. -/
def shrinkBody (run : List Char) (next : Option Char) : Option (List Char) :=
  shrinkGo run.reverse next

/-- Word-boundary test before a match that begins with a word character:
true at the start of the string or after a non-word character. -/
def bdryBefore : Option Char → Bool
  | none => true
  | some p => !isWordChar p

/-- Length of a match of `\b[jJ]ats:[A-Za-z0-9_-]+\b` at the head of `l`
(with `prev` the character before `l`), or `none`. -/
def jatsMatchLen (prev : Option Char) (l : List Char) : Option Nat :=
  match l with
  | j :: 'a' :: 't' :: 's' :: ':' :: rest =>
    if (j = 'j' || j = 'J') && bdryBefore prev then
      match shrinkBody (rest.takeWhile jatsClassChar)
          ((rest.dropWhile jatsClassChar).head?) with
      | some body => some (5 + body.length)
      | none => none
    else none
  | _ => none

/-- One fuel-indexed step of `re.sub(r"\b[jJ]ats:[A-Za-z0-9_-]+\b", " ", s)`:
scan left to right, replacing each match by a single space; on failure at a
position, advance one character.  `prev` is the original character preceding
the current position (boundaries are judged against the original text). -/
def jatsSubF : Nat → Option Char → List Char → List Char
  | 0, _, _ => []
  | _, _, [] => []
  | fuel + 1, prev, c :: rest =>
    match jatsMatchLen prev (c :: rest) with
    | some n =>
      ' ' :: jatsSubF fuel (some ((c :: rest).getD (n - 1) ' ')) ((c :: rest).drop n)
    | none => c :: jatsSubF fuel (some c) rest

/-- `re.sub(r"\b[jJ]ats:[A-Za-z0-9_-]+\b", " ", s)` on character lists
(each step consumes at least one character, so `l.length` fuel suffices). -/
def jatsSub (l : List Char) : List Char := jatsSubF l.length none l

/-! ### Whitespace collapsing and stripping -/

/-- `re.sub(r"\s+", " ", s)`: replace each maximal whitespace run by a single
space; `pw` records whether the previous character was whitespace. -/
def collapseGo : Bool → List Char → List Char
  | _, [] => []
  | pw, c :: rest =>
    if wsChar c then
      if pw then collapseGo true rest else ' ' :: collapseGo true rest
    else c :: collapseGo false rest

/-- Python `str.strip()`: drop leading and trailing whitespace. -/
def pyStrip (l : List Char) : List Char :=
  ((l.dropWhile wsChar).reverse.dropWhile wsChar).reverse

/-- Python `str.strip()` on strings (used on the record's `doi` field). -/
def pyStripS (s : String) : String := String.mk (pyStrip s.toList)

/-- Python `str.lower()` (ASCII model). -/
def pyLower (s : String) : String := String.mk (s.toList.map Char.toLower)

/-- `strip_xml_tags` of scripts/enrich_with_doi.py: replace markup tags by a
space, remove `jats:`-prefixed tokens, collapse whitespace, strip the ends. -/
def strip_xml_tags (s : String) : String :=
  String.mk (pyStrip (collapseGo false (jatsSub (removeTags [' '] s.toList))))

/-- `norm_title` of scripts/enrich_with_doi.py: lowercase, delete markup tags,
turn hyphens into spaces, delete the remaining non-word non-space characters,
collapse whitespace, strip the ends. -/
def norm_title (s : String) : String :=
  let l := s.toList.map Char.toLower
  let l := removeTags [] l
  let l := l.map (fun c => if c = '-' then ' ' else c)
  let l := l.filter (fun c => isWordChar c || wsChar c)
  String.mk (pyStrip (collapseGo false l))

/-! ### Data model

A `CrAuthor` is one entry of a Crossref `author` list (`given`/`family` may
each be absent).  A `Cand` is one item of a Crossref title-search result
(`title` is a list of strings in the Crossref payload; `DOI` may be absent).
A `CrWork` is the `message` of a Crossref identifier lookup.  An `Item` is
one record of the input JSON list processed by `main`. -/

structure CrAuthor where
  given : Option String
  family : Option String
deriving DecidableEq

structure Cand where
  title : List String
  doi : Option String
  author : List CrAuthor
deriving DecidableEq

structure CrWork where
  containerTitle : List String
  author : List CrAuthor
  abstract : String
  url : String
  issuedDateParts : List (List Int)
deriving DecidableEq

structure Item where
  title : String
  link : String
  journal : String
  authors : List String
  doi : String
  doi_display : String
  abstract : String
  pubDate : String
  allow_doi_lookup : Bool
deriving DecidableEq

/-- `" ".join(filter(None, [a.get("given"), a.get("family")]))`: absent and
empty-string parts are dropped. -/
def joinName (a : CrAuthor) : String :=
  String.intercalate " " ((a.given.toList ++ a.family.toList).filter (fun s => s ≠ ""))

/-- `(cand.get("title") or [""])[0]`. -/
def candTitle (c : Cand) : String := (if c.title.isEmpty then [""] else c.title).headD ""

/-! ### Matching logic (`author_overlap`, `recover_doi`) -/

/-- `author_overlap` of scripts/enrich_with_doi.py: the two author lists,
with falsy names dropped and the rest lowercased, share an element. -/
def author_overlap (a b : List String) : Bool :=
  let aSet := (a.filter (fun s => s ≠ "")).map pyLower
  let bSet := (b.filter (fun s => s ≠ "")).map pyLower
  aSet.any (fun x => bSet.contains x)

/-- Python's substring test `needle in hay` on character lists. -/
def infixOfB (n : List Char) : List Char → Bool
  | [] => n.isEmpty
  | c :: t => n.isPrefixOf (c :: t) || infixOfB n t

/-- Python's substring test `needle in hay` on strings. -/
def strContains (hay needle : String) : Bool := infixOfB needle.toList hay.toList

/-- Tier A of `recover_doi`: first candidate whose normalized title equals
the record's normalized title; returns that candidate's `DOI` entry. -/
def tierA (wanted : String) (cands : List Cand) : Option (Option String) :=
  (cands.find? (fun c => norm_title (candTitle c) == wanted)).map (fun c => c.doi)

/-- Tier B of `recover_doi`: first candidate whose normalized title contains
or is contained in the record's normalized title and whose author list
overlaps the record's; returns that candidate's `DOI` entry. -/
def tierB (it : Item) (wanted : String) (cands : List Cand) : Option (Option String) :=
  (cands.find? (fun c =>
    (strContains (norm_title (candTitle c)) wanted
      || strContains wanted (norm_title (candTitle c)))
    && author_overlap it.authors (c.author.map joinName))).map (fun c => c.doi)

/-- Tier C of `recover_doi`: ask the same-work oracle about each candidate in
order; return the first affirmed candidate's `DOI` entry, counting how many
oracle calls were made. -/
def tierC (oracle : String → List String → String → List String → Bool)
    (rssTitle : String) (rssAuthors : List String) :
    List Cand → Nat → Option String × Nat
  | [], n => (none, n)
  | c :: rest, n =>
    if oracle rssTitle rssAuthors (candTitle c) (c.author.map joinName) then (c.doi, n + 1)
    else tierC oracle rssTitle rssAuthors rest (n + 1)

/-- `recover_doi` of scripts/enrich_with_doi.py, with the Crossref search
result passed in as `cands` and the OpenAI comparator as `oracle`.  Returns
the recovered identifier (if any) together with the number of oracle calls
made. -/
def recover_doi (it : Item) (cands : List Cand)
    (oracle : String → List String → String → List String → Bool) :
    Option String × Nat :=
  let wanted := norm_title it.title
  match tierA wanted cands with
  | some r => (r, 0)
  | none =>
    match tierB it wanted cands with
    | some r => (r, 0)
    | none => tierC oracle it.title it.authors cands 0

/-! ### Dates (`datetime(y, m, d, tzinfo=utc)` and `format_datetime`) -/

/-- Gregorian leap year (as Python's `datetime` uses). -/
def isLeap (y : Int) : Bool := y % 4 == 0 && (y % 100 != 0 || y % 400 == 0)

/-- Days in a month. -/
def daysInMonth (y m : Int) : Int :=
  if m == 2 then (if isLeap y then 29 else 28)
  else if m == 4 || m == 6 || m == 9 || m == 11 then 30
  else 31

/-- Validity of `datetime(y, m, d)`: `datetime.MINYEAR = 1`,
`datetime.MAXYEAR = 9999`; otherwise `ValueError`. -/
def validDate (y m d : Int) : Bool :=
  decide (1 ≤ y ∧ y ≤ 9999 ∧ 1 ≤ m ∧ m ≤ 12 ∧ 1 ≤ d ∧ d ≤ daysInMonth y m)

def pad2 (n : Nat) : String := if n < 10 then "0" ++ toString n else toString n

def pad4 (n : Nat) : String :=
  if n < 10 then "000" ++ toString n
  else if n < 100 then "00" ++ toString n
  else if n < 1000 then "0" ++ toString n
  else toString n

def sakTable : List Nat := [0, 3, 2, 5, 0, 3, 5, 1, 4, 6, 2, 4]

/-- Day of week (0 = Sunday) by Sakamoto's method, valid for Gregorian dates
with year at least 1. -/
def weekdayIdx (y m d : Nat) : Nat :=
  let y2 := if m < 3 then y - 1 else y
  (y2 + y2 / 4 - y2 / 100 + y2 / 400 + sakTable.getD (m - 1) 0 + d) % 7

def weekdayName : Nat → String
  | 0 => "Sun" | 1 => "Mon" | 2 => "Tue" | 3 => "Wed" | 4 => "Thu" | 5 => "Fri"
  | _ => "Sat"

def monthName : Nat → String
  | 1 => "Jan" | 2 => "Feb" | 3 => "Mar" | 4 => "Apr" | 5 => "May" | 6 => "Jun"
  | 7 => "Jul" | 8 => "Aug" | 9 => "Sep" | 10 => "Oct" | 11 => "Nov" | _ => "Dec"

/-- `email.utils.format_datetime(datetime(y, m, d, tzinfo=timezone.utc))`. -/
def formatDatetime (y m d : Int) : String :=
  weekdayName (weekdayIdx y.toNat m.toNat d.toNat) ++ ", " ++ pad2 d.toNat ++ " "
    ++ monthName m.toNat ++ " " ++ pad4 y.toNat ++ " 00:00:00 +0000"

/-! ### The per-record reconciliation of `main` (lines 246-284) -/

/-- A Python exception escaping the per-record body of `main`'s loop. -/
inductive PyError
  | valueError
deriving DecidableEq

/-- The identifier `main` works with after lines 248-252: the stripped `doi`
field, or — when that is empty and recovery is allowed — the result of
`recover_doi` (absent treated as empty, as Python truthiness does). -/
def resolvedDoi (it : Item) (recovered : Option String) : String :=
  let d := pyStripS it.doi
  if d = "" && it.allow_doi_lookup then recovered.getD "" else d

/-- The gap-filling merges of lines 260-273.  Each condition reads the field
it writes, so the four updates are independent. -/
def mergeCr (it : Item) (doi : String) (cr : CrWork) : Item :=
  { it with
    journal := if it.journal = "" ∧ cr.containerTitle ≠ [] then cr.containerTitle.headD "" else it.journal,
    authors := if it.authors = [] ∧ cr.author ≠ [] then cr.author.map joinName else it.authors,
    abstract := if it.abstract = "" ∧ cr.abstract ≠ "" then strip_xml_tags cr.abstract else it.abstract,
    link := if it.link = "" then (if cr.url ≠ "" then cr.url else "https://doi.org/" ++ doi) else it.link }

/-- Lines 275-279: `y, m, d = pub[0] + [1, 1]` followed by
`datetime(y, m, d, tzinfo=timezone.utc)`.  The unpacking raises `ValueError`
unless `pub[0] + [1, 1]` has exactly three elements, and the `datetime`
constructor raises `ValueError` on an invalid date. -/
def synthDate (it : Item) (cr : CrWork) : Except PyError Item :=
  match cr.issuedDateParts with
  | [] => .ok it
  | first :: _ =>
    match first ++ [1, 1] with
    | [y, m, d] =>
      if validDate y m d then .ok { it with pubDate := formatDatetime y m d }
      else .error .valueError
    | _ => .error .valueError

/-- Line 281-282: the record's abstract, if any, is (re-)sanitized. -/
def finalizeAbstract (it : Item) : Item :=
  if it.abstract ≠ "" then { it with abstract := strip_xml_tags it.abstract } else it

/-- The body of `main`'s per-record loop (lines 246-284), with the recovery
result and the Crossref lookup response passed in (`crossref_lookup_doi`
swallows its own errors and returns `None`/`none` on any failure; it is
consulted only when the resolved identifier is non-empty).  An `Except.error`
result models a Python exception propagating out of the loop body. -/
def processItem (it : Item) (recovered : Option String) (cr0 : Option CrWork) :
    Except PyError Item :=
  let doi := resolvedDoi it recovered
  let it1 := { it with doi_display := if doi ≠ "" then doi else "DOI not found" }
  match (if doi ≠ "" then cr0 else none) with
  | none => .ok (finalizeAbstract it1)
  | some cr => (synthDate (mergeCr it1 doi cr) cr).map finalizeAbstract

/-! ### The Deduplicator -/

/-- Normalized identifier key of a record (identifiers are case-insensitive). -/
def normIdKey (it : Item) : String := pyLower it.doi

/-- Normalized link key of a record. -/
def normLinkKey (it : Item) : String := it.link

/-- Normalized title key of a record. -/
def normTitleKey (it : Item) : String := norm_title it.title

/-- Modelled from the spec: the Deduplicator of spec §4.5 is not present in
src/scripts (neither script drops duplicates); it is modelled from the
specification's words: one pass in arrival order over the candidate output,
three seen sets (normalized identifier, normalized link, normalized title);
a record is dropped if any of its non-empty identifying keys is already in
the corresponding seen set, otherwise kept with its non-empty keys added. -/
def dedupGo (sI sL sT : List String) : List Item → List Item
  | [] => []
  | it :: rest =>
    let kI := normIdKey it
    let kL := normLinkKey it
    let kT := normTitleKey it
    if (kI ≠ "" ∧ kI ∈ sI) ∨ (kL ≠ "" ∧ kL ∈ sL) ∨ (kT ≠ "" ∧ kT ∈ sT) then
      dedupGo sI sL sT rest
    else
      it :: dedupGo (if kI = "" then sI else kI :: sI)
        (if kL = "" then sL else kL :: sL)
        (if kT = "" then sT else kT :: sT) rest

/-- Modelled from the spec: the Deduplicator run with empty seen sets. -/
def dedup (l : List Item) : List Item := dedupGo [] [] [] l

/-- Two records share a non-empty identifier, link, or normalized title
(the sharing the deduplication invariant of spec §3 forbids). -/
def sharesKey (a b : Item) : Prop :=
  (a.doi ≠ "" ∧ a.doi = b.doi) ∨ (a.link ≠ "" ∧ a.link = b.link)
    ∨ (norm_title a.title ≠ "" ∧ norm_title a.title = norm_title b.title)

/-- Two records share a non-empty normalized deduplication key. -/
def sharesNormKey (a b : Item) : Prop :=
  (normIdKey a ≠ "" ∧ normIdKey a = normIdKey b)
    ∨ (normLinkKey a ≠ "" ∧ normLinkKey a = normLinkKey b)
    ∨ (normTitleKey a ≠ "" ∧ normTitleKey a = normTitleKey b)

/-! ### `extract_doi` of scripts/run_pipeline.py (lines 86-113) -/

/-- One entry of a feed `links` list (only `href` is consulted). -/
structure FeedLink where
  href : String
deriving DecidableEq

/-- A feedparser entry, restricted to the fields `extract_doi` reads. -/
structure Entry where
  dc_identifier : String
  doi : String
  prism_doi : String
  links : List FeedLink
  id : String
  guid : String
deriving DecidableEq

/-- A truthy field contributes itself as a candidate. -/
def optCand (s : String) : List String := if s = "" then [] else [s]

/-- The candidate strings of `extract_doi`, in the source's fixed priority
order: `dc_identifier`, `doi`, `prism_doi`, then every link whose `href`
contains `"doi.org/"`, then `id`, then `guid`. -/
def candidates (e : Entry) : List String :=
  optCand e.dc_identifier ++ optCand e.doi ++ optCand e.prism_doi
    ++ e.links.filterMap (fun lk =>
        if lk.href ≠ "" ∧ strContains lk.href "doi.org/" then some lk.href else none)
    ++ optCand e.id ++ optCand e.guid

def isDigitC (c : Char) : Bool := c.isDigit

/-- The character class `[-._;()/:A-Z0-9]` of the DOI regex under
`re.IGNORECASE` (so lowercase letters match as well). -/
def doiBodyChar (c : Char) : Bool :=
  c.isAlphanum || c = '-' || c = '.' || c = '_' || c = ';' || c = '(' || c = ')'
    || c = '/' || c = ':'

/-- The `/⟨body⟩\b` tail of the DOI regex: `ds` are the matched digits,
`after` the text following them; the match requires a slash and a nonempty
body run ending on a word boundary. -/
def matchSlash (ds : List Char) (after : List Char) : Option (List Char) :=
  match after with
  | '/' :: rest3 =>
    match shrinkBody (rest3.takeWhile doiBodyChar)
        ((rest3.dropWhile doiBodyChar).head?) with
    | some body => some ('1' :: '0' :: '.' :: (ds ++ '/' :: body))
    | none => none
  | _ => none

/-- The `\d{4,9}/...` part of the DOI regex after the literal `10.`. -/
def matchDigits (rest : List Char) : Option (List Char) :=
  if 4 ≤ (rest.takeWhile isDigitC).length ∧ (rest.takeWhile isDigitC).length ≤ 9 then
    matchSlash (rest.takeWhile isDigitC) (rest.dropWhile isDigitC)
  else none

/-- Attempt to match `\b10\.\d{4,9}/[-._;()/:A-Z0-9]+\b` (case-insensitive)
at the head of `l`, with `prev` the character before `l`; returns the matched
characters. -/
def matchAt (prev : Option Char) (l : List Char) : Option (List Char) :=
  match l with
  | '1' :: '0' :: '.' :: rest =>
    if bdryBefore prev then matchDigits rest else none
  | _ => none

/-- Leftmost match of the DOI pattern: try each position left to right. -/
def doiSearchL (prev : Option Char) : List Char → Option (List Char)
  | [] => none
  | c :: rest =>
    match matchAt prev (c :: rest) with
    | some m => some m
    | none => doiSearchL (some c) rest

/-- `DOI_RE.search(s)`, returning the matched substring. -/
def doiSearch (s : String) : Option String :=
  (doiSearchL none s.toList).map (fun m => String.mk m)

/-- The canonical DOI shape: `10.` followed by 4-9 digits, a slash, then a
nonempty run of allowed identifier characters. -/
def isDoiShape (l : List Char) : Bool :=
  match l with
  | '1' :: '0' :: '.' :: rest =>
    let ds := rest.takeWhile isDigitC
    decide (4 ≤ ds.length ∧ ds.length ≤ 9) &&
      (match rest.dropWhile isDigitC with
       | '/' :: body => !body.isEmpty && body.all doiBodyChar
       | _ => false)
  | _ => false

/-- The scan of `extract_doi` over its candidate list: the first candidate
containing a DOI match yields that match. -/
def firstMatch : List String → Option String
  | [] => none
  | c :: rest =>
    match doiSearch c with
    | some d => some d
    | none => firstMatch rest

/-- `extract_doi` of scripts/run_pipeline.py. -/
def extract_doi (e : Entry) : Option String := firstMatch (candidates e)

/-! ### A scanner for "contains a `<...>` markup tag"

`HasTag l` states that `l` contains a match of `<[^>]+>`: a `'<'`, then at
least one character none of which is `'>'`, then a `'>'`.  The equivalent
left-to-right scanner `tagScan` makes the property easy to track through the
sanitization passes: state `S` means no pending `'<'` since the last `'>'`;
`P` means a `'<'` was just read; `D` means some `'<'` has at least one later
character and no `'>'` yet, so the next `'>'` completes a tag. -/

inductive TagSt
  | S
  | P
  | D
deriving DecidableEq

def tagStep : TagSt → Char → TagSt
  | .S, c => if c = '<' then .P else .S
  | .P, c => if c = '>' then .S else .D
  | .D, _ => .D

/-- Does this character complete a tag in this state? -/
def tagAcc : TagSt → Char → Bool
  | .D, c => c = '>'
  | _, _ => false

/-- Does scanning `l` from state `st` ever complete a tag? -/
def tagScan : TagSt → List Char → Bool
  | _, [] => false
  | st, c :: rest => tagAcc st c || tagScan (tagStep st c) rest

/-- The state after scanning `l` from `st`. -/
def scanEnd : TagSt → List Char → TagSt
  | st, [] => st
  | st, c :: rest => scanEnd (tagStep st c) rest

/-- The state transition of any character other than `'<'` and `'>'`. -/
def stO : TagSt → TagSt
  | .S => .S
  | .P => .D
  | .D => .D

/-- `l` contains a match of `<[^>]+>`. -/
def HasTag (l : List Char) : Prop :=
  ∃ a g b, l = a ++ '<' :: (g ++ '>' :: b) ∧ g ≠ [] ∧ '>' ∉ g

/-! ### Concrete records used to evaluate the definitions -/

/-- A record with an explicit identifier (used with a full three-part
registry date). -/
def itC1 : Item := ⟨"a title", "", "", [], "10.2/y", "", "", "", false⟩

/-- A three-part issued date from the registry: `{"date-parts": [[2020, 5, 3]]}`. -/
def crC1 : CrWork := ⟨[], [], "", "", [[2020, 5, 3]]⟩

/-- A record with an explicit identifier and no publication date. -/
def itC2 : Item := ⟨"a title", "", "", [], "10.2/y", "", "", "", false⟩

/-- A year-and-month issued date from the registry:
`{"date-parts": [[2020, 5]]}`. -/
def crC2 : CrWork := ⟨[], [], "", "", [[2020, 5]]⟩

/-- A fully populated record (every mergeable field non-empty). -/
def itC3 : Item := ⟨"t", "L", "J", ["A"], "10.1/x", "weird", "done", "orig", false⟩

/-- A registry record carrying only a one-part issued date. -/
def crC3 : CrWork := ⟨[], [], "", "", [[2020]]⟩

/-- A fully populated record whose abstract is not in sanitized form and
whose `doi_display` differs from its identifier. -/
def itC8 : Item := ⟨"t", "L", "J", ["A"], "10.1/x", "", "a  b", "orig", false⟩

/-- A registry record with data for every field and a one-part issued date. -/
def crC8 : CrWork := ⟨["X"], [⟨some "G", some "F"⟩], "Z", "u", [[2021]]⟩

/-- A fully populated record already in reconciled form. -/
def itW8 : Item := ⟨"t", "L", "J", ["A"], "10.1/x", "10.1/x", "a b", "orig", false⟩

/-- A record whose `doi` field is literally the sentinel text. -/
def itC7 : Item := ⟨"t", "", "", [], "DOI not found", "", "", "", false⟩

/-- A record with an ordinary identifier (display witness). -/
def itW7 : Item := ⟨"t", "", "", [], "10.3/z", "", "", "", false⟩

/-- The record of the spec's tiered-recovery scenario. -/
def itR : Item := ⟨"EGFR in HNSCC", "", "", ["A. Smith"], "", "", "", "", true⟩

/-- The exact-title candidate of the spec's scenario. -/
def candE : Cand := ⟨["EGFR in HNSCC"], some "10.1/x", []⟩

/-- The non-matching candidate of the spec's scenario. -/
def candO : Cand := ⟨["Something else"], some "10.1/y", []⟩

/-- A record with an empty author list. -/
def itNoAuth : Item := ⟨"alpha beta", "", "", [], "", "", "", "", true⟩

/-- A candidate whose normalized title is contained in `itNoAuth`'s and
which carries authors. -/
def candC : Cand := ⟨["alpha"], some "10.1/z", [⟨some "A", some "B"⟩]⟩

/-- Two records sharing a link, then a key-free record (dedup example). -/
def dupA : Item := ⟨"T one", "L1", "", [], "10.1/A", "", "", "", false⟩

/-- A record sharing `dupA`'s link but nothing else. -/
def dupB : Item := ⟨"other", "L1", "", [], "", "", "", "", false⟩

/-- A feed entry whose `doi` field embeds an identifier with mixed case and
a trailing dot. -/
def entryW : Entry := ⟨"", "doi:10.1234/AbC.x.", "", [], "", ""⟩

/-- The record `itC3` produces when no source responds. -/
def outW3 : Item := ⟨"t", "L", "J", ["A"], "10.1/x", "10.1/x", "done", "orig", false⟩

/-- The record `itC3` produces against `crC3`: its publication date and
display text are overwritten. -/
def outC3 : Item :=
  ⟨"t", "L", "J", ["A"], "10.1/x", "10.1/x", "done", "Wed, 01 Jan 2020 00:00:00 +0000", false⟩

/-- The record `itC7` produces when no source responds. -/
def outC7 : Item := ⟨"t", "", "", [], "DOI not found", "DOI not found", "", "", false⟩

/-- The record `itW7` produces when no source responds. -/
def outW7 : Item := ⟨"t", "", "", [], "10.3/z", "10.3/z", "", "", false⟩

/-- The record `itC8` produces against `crC8`: publication date overwritten,
abstract re-sanitized, display text recomputed. -/
def outC8 : Item :=
  ⟨"t", "L", "J", ["A"], "10.1/x", "10.1/x", "a b", "Fri, 01 Jan 2021 00:00:00 +0000", false⟩

/-! ## Lemmas about the per-record reconciliation -/

theorem finalizeAbstract_fields (it : Item) :
    (finalizeAbstract it).title = it.title ∧ (finalizeAbstract it).link = it.link
      ∧ (finalizeAbstract it).journal = it.journal
      ∧ (finalizeAbstract it).authors = it.authors
      ∧ (finalizeAbstract it).doi = it.doi
      ∧ (finalizeAbstract it).doi_display = it.doi_display
      ∧ (finalizeAbstract it).pubDate = it.pubDate := by
  unfold finalizeAbstract
  split <;> simp

theorem synthDate_ok_fields (it : Item) (cr : CrWork) (out : Item)
    (h : synthDate it cr = .ok out) :
    out.title = it.title ∧ out.link = it.link ∧ out.journal = it.journal
      ∧ out.authors = it.authors ∧ out.doi = it.doi
      ∧ out.doi_display = it.doi_display ∧ out.abstract = it.abstract := by
  unfold synthDate at h
  split at h
  · cases h
    simp
  · split at h
    · split at h
      · cases h
        simp
      · cases h
    · cases h

theorem mergeCr_stable_fields (it : Item) (doi : String) (cr : CrWork) :
    (mergeCr it doi cr).title = it.title ∧ (mergeCr it doi cr).doi = it.doi
      ∧ (mergeCr it doi cr).doi_display = it.doi_display
      ∧ (mergeCr it doi cr).pubDate = it.pubDate := by
  simp [mergeCr]

theorem mergeCr_link_of_nonempty (it : Item) (doi : String) (cr : CrWork)
    (h : it.link ≠ "") : (mergeCr it doi cr).link = it.link := by
  simp [mergeCr, h]

theorem mergeCr_journal_of_nonempty (it : Item) (doi : String) (cr : CrWork)
    (h : it.journal ≠ "") : (mergeCr it doi cr).journal = it.journal := by
  simp [mergeCr, h]

theorem mergeCr_authors_of_nonempty (it : Item) (doi : String) (cr : CrWork)
    (h : it.authors ≠ []) : (mergeCr it doi cr).authors = it.authors := by
  simp [mergeCr, h]

/-- Destructuring of a successful run of the loop body: the output arises
from `finalizeAbstract` of a record whose non-abstract fields are those of
the input after `doi_display` assignment and (conditional) gap filling. -/
theorem processItem_ok_fields (it : Item) (recovered : Option String)
    (cr0 : Option CrWork) (out : Item)
    (h : processItem it recovered cr0 = .ok out) :
    out.title = it.title ∧ out.doi = it.doi
      ∧ (it.link ≠ "" → out.link = it.link)
      ∧ (it.journal ≠ "" → out.journal = it.journal)
      ∧ (it.authors ≠ [] → out.authors = it.authors)
      ∧ out.doi_display
          = (if resolvedDoi it recovered ≠ "" then resolvedDoi it recovered
             else "DOI not found") := by
  simp only [processItem] at h
  split at h
  · cases h
    refine ⟨?_, ?_, ?_, ?_, ?_, ?_⟩ <;>
      simp [finalizeAbstract_fields]
  next cr heq =>
    rcases hs : synthDate (mergeCr
        { it with doi_display := if resolvedDoi it recovered ≠ ""
            then resolvedDoi it recovered else "DOI not found" }
        (resolvedDoi it recovered) cr) cr with e | mid
    · rw [hs] at h
      cases h
    · rw [hs] at h
      cases h
      obtain ⟨hf1, hf2, hf3, hf4, hf5, hf6, hf7⟩ := finalizeAbstract_fields mid
      obtain ⟨hm1, hm2, hm3, hm4, hm5, hm6, hm7⟩ := synthDate_ok_fields _ _ _ hs
      refine ⟨?_, ?_, ?_, ?_, ?_, ?_⟩
      · rw [hf1, hm1]
        rfl
      · rw [hf5, hm5]
        rfl
      · intro hl
        rw [hf2, hm2]
        simp [mergeCr, hl]
      · intro hj
        rw [hf3, hm3]
        simp [mergeCr, hj]
      · intro ha
        rw [hf4, hm4]
        simp [mergeCr, ha]
      · rw [hf6, hm6]
        rfl

/-! ## Claim C1 -/

/-- Claim C1: the claim states that no exception escapes the per-record
reconciliation; in the code, a registry response whose issued date-parts
have three entries makes `y, m, d = pub[0] + [1, 1]` (line 277) raise
`ValueError`, which nothing in `main`'s loop catches: the record is lost and
the batch aborts.  The embedding evaluates the loop body at such an input to
the error outcome. -/
theorem processItem_three_part_date_raises :
    processItem itC1 none (some crC1) = .error .valueError := by rfl

/-! ## Claim C2 -/

/-- Claim C2: the claim states that a source date with year and month but no
day yields a synthesized date with day defaulted to 1; in the code,
`pub[0] + [1, 1]` for `pub[0] = [2020, 5]` has four entries, so the
three-way unpacking at line 277 raises `ValueError` instead, and no date is
synthesized for any two-part date.  The embedding evaluates the loop body at
a record with no ready-made date and a `[[2020, 5]]` registry date to the
error outcome. -/
theorem processItem_two_part_date_raises :
    itC2.pubDate = "" ∧ processItem itC2 none (some crC2) = .error .valueError := by
  exact ⟨rfl, rfl⟩

/-! ## Claim C3 -/

/-- Claim C3, counterexample: a record whose `pubDate` and `doi_display` are
non-empty has both overwritten by the merge (the publication-date synthesis
of lines 275-279 and the display assignment of line 254 carry no emptiness
guard), so "for every field except abstract, a non-empty original value
survives the merge" fails as stated. -/
theorem merge_overwrites_pubDate :
    itC3.pubDate ≠ "" ∧ itC3.doi_display ≠ ""
      ∧ processItem itC3 none (some crC3) = .ok outC3
      ∧ outC3.pubDate ≠ itC3.pubDate ∧ outC3.doi_display ≠ itC3.doi_display := by
  refine ⟨by decide, by decide, by rfl, by decide, by decide⟩

/-- Claim C3 (amended): for the fields title, link, journal, authors and
identifier, a non-empty original value survives the merge unchanged whatever
the sources return; `publication_date` and `identifier_display` are excluded
(both are written without an emptiness guard), as is `abstract`. -/
theorem merge_no_overwrite (it : Item) (recovered : Option String)
    (cr0 : Option CrWork) (out : Item)
    (h : processItem it recovered cr0 = .ok out) :
    out.title = it.title
      ∧ (it.link ≠ "" → out.link = it.link)
      ∧ (it.journal ≠ "" → out.journal = it.journal)
      ∧ (it.authors ≠ [] → out.authors = it.authors)
      ∧ (it.doi ≠ "" → out.doi = it.doi) := by
  obtain ⟨h1, h2, h3, h4, h5, _⟩ := processItem_ok_fields it recovered cr0 out h
  exact ⟨h1, h3, h4, h5, fun _ => h2⟩

/-- Witness for the amended claim C3 at a concrete fully-populated record. -/
theorem merge_no_overwrite_witness :
    processItem itC3 none none = .ok outW3
      ∧ (outW3.title = itC3.title
          ∧ (itC3.link ≠ "" → outW3.link = itC3.link)
          ∧ (itC3.journal ≠ "" → outW3.journal = itC3.journal)
          ∧ (itC3.authors ≠ [] → outW3.authors = itC3.authors)
          ∧ (itC3.doi ≠ "" → outW3.doi = itC3.doi)) :=
  ⟨by rfl, merge_no_overwrite itC3 none none outW3 (by rfl)⟩

/-! ## Claim C7 -/

/-- Claim C7, counterexample: a record whose `doi` field is literally the
sentinel text resolves to a non-empty identifier whose display text equals
the sentinel, so "`identifier_display` equals the sentinel iff `identifier`
is empty" fails as stated. -/
theorem doi_display_sentinel_collision :
    resolvedDoi itC7 none ≠ ""
      ∧ processItem itC7 none none = .ok outC7
      ∧ outC7.doi_display = "DOI not found" := by
  refine ⟨by decide, by rfl, by rfl⟩

/-- Claim C7 (amended): `identifier_display` equals the sentinel iff the
resolved identifier is empty or is itself literally the sentinel string; and
whenever the resolved identifier is non-empty, `identifier_display` equals
it. -/
theorem doi_display_spec (it : Item) (recovered : Option String)
    (cr0 : Option CrWork) (out : Item)
    (h : processItem it recovered cr0 = .ok out) :
    (out.doi_display = "DOI not found"
        ↔ (resolvedDoi it recovered = "" ∨ resolvedDoi it recovered = "DOI not found"))
      ∧ (resolvedDoi it recovered ≠ "" → out.doi_display = resolvedDoi it recovered) := by
  obtain ⟨-, -, -, -, -, hd⟩ := processItem_ok_fields it recovered cr0 out h
  by_cases hr : resolvedDoi it recovered = ""
  · rw [hd, if_neg (by simpa using hr)]
    constructor
    · simp [hr]
    · intro h'
      exact absurd hr h'
  · rw [hd, if_pos hr]
    constructor
    · constructor
      · intro he
        exact Or.inr he
      · rintro (he | he)
        · exact absurd he hr
        · exact he
    · intro _
      rfl

/-- Witness for the amended claim C7 at a record with an ordinary
identifier. -/
theorem doi_display_spec_witness :
    processItem itW7 none none = .ok outW7
      ∧ ((outW7.doi_display = "DOI not found"
            ↔ (resolvedDoi itW7 none = "" ∨ resolvedDoi itW7 none = "DOI not found"))
          ∧ (resolvedDoi itW7 none ≠ "" → outW7.doi_display = resolvedDoi itW7 none)) :=
  ⟨by rfl, doi_display_spec itW7 none none outW7 (by rfl)⟩

/-! ## Claim C8 -/

/-- Claim C8, counterexample: a record with a non-empty value for every
mergeable attribute is not reproduced identically: its abstract is
re-sanitized, its display text is recomputed, and a registry issued date
overwrites its publication date, so "re-running reconciliation produces an
identical record" fails as stated. -/
theorem reconcile_not_idempotent :
    itC8.journal ≠ "" ∧ itC8.authors ≠ [] ∧ itC8.abstract ≠ "" ∧ itC8.link ≠ ""
      ∧ itC8.doi ≠ "" ∧ itC8.pubDate ≠ ""
      ∧ processItem itC8 none (some crC8) = .ok outC8 ∧ outC8 ≠ itC8 := by
  refine ⟨by decide, by decide, by decide, by decide, by decide, by decide, by rfl, by decide⟩

/-- `resolvedDoi` is the stripped `doi` field whenever that is non-empty. -/
theorem resolvedDoi_of_nonempty (it : Item) (recovered : Option String)
    (hd : pyStripS it.doi ≠ "") : resolvedDoi it recovered = pyStripS it.doi := by
  unfold resolvedDoi
  simp [hd]

/-- A record with every mergeable field non-empty takes nothing from the
registry response. -/
theorem mergeCr_of_full (it : Item) (doi : String) (cr : CrWork)
    (hj : it.journal ≠ "") (ha : it.authors ≠ []) (hab : it.abstract ≠ "")
    (hl : it.link ≠ "") : mergeCr it doi cr = it := by
  simp [mergeCr, hj, ha, hab, hl]

/-- Claim C8 (amended): on a record with a non-empty value for every
mergeable attribute, and a registry response carrying no issued date-parts,
reconciliation changes nothing except replacing the abstract by its
sanitized form and recomputing `identifier_display`; with issued date-parts
present the publication date is additionally overwritten (or, for malformed
parts, the record aborts). -/
theorem reconcile_idempotent_amended (it : Item) (recovered : Option String)
    (cr0 : Option CrWork)
    (hj : it.journal ≠ "") (ha : it.authors ≠ []) (hab : it.abstract ≠ "")
    (hl : it.link ≠ "") (hd : pyStripS it.doi ≠ "")
    (hcr : ∀ cr, cr0 = some cr → cr.issuedDateParts = []) :
    processItem it recovered cr0
      = .ok { it with abstract := strip_xml_tags it.abstract,
                      doi_display := pyStripS it.doi } := by
  have hres := resolvedDoi_of_nonempty it recovered hd
  simp only [processItem, hres, if_pos hd, if_neg, hd, ne_eq, not_false_iff, ite_true]
  cases cr0 with
  | none =>
    simp only [finalizeAbstract]
    rw [if_pos (by simpa using hab)]
  | some cr =>
    have hdp := hcr cr rfl
    dsimp only
    rw [mergeCr_of_full { it with doi_display := pyStripS it.doi }
      (pyStripS it.doi) cr hj ha hab hl]
    unfold synthDate
    rw [hdp]
    simp only [Except.map]
    unfold finalizeAbstract
    rw [if_pos (by simpa using hab)]

/-- Witness for the amended claim C8 at a fully populated, already-sanitized
record with no registry response. -/
theorem reconcile_idempotent_amended_witness :
    itW8.journal ≠ "" ∧ itW8.authors ≠ [] ∧ itW8.abstract ≠ "" ∧ itW8.link ≠ ""
      ∧ pyStripS itW8.doi ≠ ""
      ∧ processItem itW8 none none
          = .ok { itW8 with abstract := strip_xml_tags itW8.abstract,
                            doi_display := pyStripS itW8.doi } :=
  ⟨by decide, by decide, by decide, by decide, by decide,
    reconcile_idempotent_amended itW8 none none (by decide) (by decide) (by decide)
      (by decide) (by decide) (fun cr h => by cases h)⟩

/-! ## Claim C5 -/

/-- Claim C5: when the candidate list contains an exact normalized-title
match, `recover_doi` returns the first such candidate's identifier with zero
oracle calls (so the semantic oracle is never invoked, whatever it would
answer); and any hit of the containment tier — which is reached only when no
exact match exists — comes from a candidate with title containment and at
least one shared case-insensitive author name. -/
theorem recover_doi_exact_tier (it : Item) (cands : List Cand)
    (oracle : String → List String → String → List String → Bool) (c : Cand)
    (h : cands.find? (fun c => norm_title (candTitle c) == norm_title it.title) = some c) :
    recover_doi it cands oracle = (c.doi, 0)
      ∧ (∀ d, tierB it (norm_title it.title) cands = some d →
          ∃ c' ∈ cands,
            (strContains (norm_title (candTitle c')) (norm_title it.title)
              || strContains (norm_title it.title) (norm_title (candTitle c'))) = true
            ∧ author_overlap it.authors (c'.author.map joinName) = true
            ∧ d = c'.doi) := by
  constructor
  · simp only [recover_doi, tierA, h, Option.map_some']
  · intro d hB
    simp only [tierB, Option.map_eq_some'] at hB
    obtain ⟨c', hc', hd⟩ := hB
    have hp := List.find?_some hc'
    have hm := List.mem_of_find?_eq_some hc'
    rw [Bool.and_eq_true] at hp
    exact ⟨c', hm, hp.1, hp.2, hd.symm⟩

/-- Witness for claim C5: the spec's concrete tiered-recovery scenario, with
an oracle that would affirm anything — yet is never called. -/
theorem recover_doi_exact_tier_witness :
    ([candO, candE].find?
        (fun c => norm_title (candTitle c) == norm_title itR.title) = some candE)
      ∧ recover_doi itR [candO, candE] (fun _ _ _ _ => true) = (some "10.1/x", 0) :=
  ⟨by decide,
    (recover_doi_exact_tier itR [candO, candE] (fun _ _ _ _ => true) candE (by decide)).1⟩

/-! ## Claim C10 -/

/-- Claim C10: a record whose author list is empty or all-empty can never be
corroborated, so the containment tier selects no candidate and recovery is
decided by the exact tier or the oracle tier alone. -/
theorem recover_doi_no_authors (it : Item) (cands : List Cand)
    (oracle : String → List String → String → List String → Bool)
    (h : ∀ a ∈ it.authors, a = "") :
    tierB it (norm_title it.title) cands = none
      ∧ recover_doi it cands oracle
          = (match tierA (norm_title it.title) cands with
             | some r => (r, 0)
             | none => tierC oracle it.title it.authors cands 0) := by
  have hov : ∀ b, author_overlap it.authors b = false := by
    intro b
    have hnil : it.authors.filter (fun s => s ≠ "") = [] := by
      rw [List.filter_eq_nil_iff]
      intro a ha
      simpa using h a ha
    simp only [author_overlap]
    rw [hnil]
    rfl
  have htB : tierB it (norm_title it.title) cands = none := by
    simp only [tierB, Option.map_eq_none']
    rw [List.find?_eq_none]
    intro c _
    simp [hov]
  refine ⟨htB, ?_⟩
  simp only [recover_doi]
  cases hA : tierA (norm_title it.title) cands with
  | some r => rfl
  | none =>
    rw [htB]

/-- Witness for claim C10: an authorless record with a candidate that passes
title containment but cannot be corroborated. -/
theorem recover_doi_no_authors_witness :
    tierB itNoAuth (norm_title itNoAuth.title) [candC] = none
      ∧ recover_doi itNoAuth [candC] (fun _ _ _ _ => false)
          = (match tierA (norm_title itNoAuth.title) [candC] with
             | some r => (r, 0)
             | none => tierC (fun _ _ _ _ => false) itNoAuth.title itNoAuth.authors [candC] 0) :=
  recover_doi_no_authors itNoAuth [candC] (fun _ _ _ _ => false) (by simp [itNoAuth])

/-! ## Claim C4 (Deduplicator, modelled from the spec) -/

theorem pyLower_empty_iff (s : String) : pyLower s = "" ↔ s = "" := by
  obtain ⟨data⟩ := s
  simp [pyLower, String.ext_iff, String.toList]

theorem sharesKey_imp_sharesNorm (a b : Item) (h : sharesKey a b) :
    sharesNormKey a b := by
  rcases h with ⟨hne, heq⟩ | ⟨hne, heq⟩ | ⟨hne, heq⟩
  · refine Or.inl ⟨?_, congrArg pyLower heq⟩
    simpa [normIdKey, pyLower_empty_iff] using hne
  · exact Or.inr (Or.inl ⟨hne, heq⟩)
  · exact Or.inr (Or.inr ⟨hne, heq⟩)

/-- Every record the Deduplicator keeps has its non-empty keys outside the
seen sets it started from. -/
theorem dedupGo_mem_keys (l : List Item) : ∀ (sI sL sT : List String) (x : Item),
    x ∈ dedupGo sI sL sT l →
    (normIdKey x ≠ "" → normIdKey x ∉ sI)
      ∧ (normLinkKey x ≠ "" → normLinkKey x ∉ sL)
      ∧ (normTitleKey x ≠ "" → normTitleKey x ∉ sT) := by
  induction l with
  | nil =>
    intro sI sL sT x hx
    simp [dedupGo] at hx
  | cons it rest ih =>
    intro sI sL sT x hx
    simp only [dedupGo] at hx
    split at hx
    · exact ih _ _ _ x hx
    · next hcond =>
      push_neg at hcond
      rcases List.mem_cons.mp hx with rfl | hx'
      · exact ⟨hcond.1, hcond.2.1, hcond.2.2⟩
      · have hk := ih _ _ _ x hx'
        refine ⟨fun hne hmem => ?_, fun hne hmem => ?_, fun hne hmem => ?_⟩
        · apply hk.1 hne
          by_cases h0 : normIdKey it = ""
          · rwa [if_pos h0]
          · rw [if_neg h0]
            exact List.mem_cons_of_mem _ hmem
        · apply hk.2.1 hne
          by_cases h0 : normLinkKey it = ""
          · rwa [if_pos h0]
          · rw [if_neg h0]
            exact List.mem_cons_of_mem _ hmem
        · apply hk.2.2 hne
          by_cases h0 : normTitleKey it = ""
          · rwa [if_pos h0]
          · rw [if_neg h0]
            exact List.mem_cons_of_mem _ hmem

/-- No two records the Deduplicator keeps share a non-empty normalized key. -/
theorem dedupGo_pairwise (l : List Item) : ∀ sI sL sT : List String,
    (dedupGo sI sL sT l).Pairwise (fun a b => ¬ sharesNormKey a b) := by
  induction l with
  | nil =>
    intro sI sL sT
    simp [dedupGo]
  | cons it rest ih =>
    intro sI sL sT
    simp only [dedupGo]
    split
    · exact ih _ _ _
    · next hcond =>
      refine List.Pairwise.cons ?_ (ih _ _ _)
      intro y hy hshare
      have hk := dedupGo_mem_keys rest _ _ _ y hy
      rcases hshare with ⟨hne, heq⟩ | ⟨hne, heq⟩ | ⟨hne, heq⟩
      · have h1 := hk.1 (heq ▸ hne)
        rw [if_neg hne] at h1
        apply h1
        rw [← heq]
        exact List.mem_cons_self _ _
      · have h1 := hk.2.1 (heq ▸ hne)
        rw [if_neg hne] at h1
        apply h1
        rw [← heq]
        exact List.mem_cons_self _ _
      · have h1 := hk.2.2 (heq ▸ hne)
        rw [if_neg hne] at h1
        apply h1
        rw [← heq]
        exact List.mem_cons_self _ _

/-- The Deduplicator's output is a sublist of its input (order preserved,
records only dropped). -/
theorem dedupGo_sublist (l : List Item) : ∀ sI sL sT : List String,
    (dedupGo sI sL sT l).Sublist l := by
  induction l with
  | nil =>
    intro sI sL sT
    simp [dedupGo]
  | cons it rest ih =>
    intro sI sL sT
    simp only [dedupGo]
    split
    · exact (ih _ _ _).cons _
    · exact (ih _ _ _).cons₂ _

/-- A record the Deduplicator drops shares a normalized key with some kept
record, unless one of its keys was already in the starting seen sets. -/
theorem dedupGo_dropped (l : List Item) : ∀ (sI sL sT : List String) (x : Item),
    x ∈ l → x ∉ dedupGo sI sL sT l →
    (∃ y ∈ dedupGo sI sL sT l, sharesNormKey y x)
      ∨ (normIdKey x ≠ "" ∧ normIdKey x ∈ sI)
      ∨ (normLinkKey x ≠ "" ∧ normLinkKey x ∈ sL)
      ∨ (normTitleKey x ≠ "" ∧ normTitleKey x ∈ sT) := by
  induction l with
  | nil =>
    intro sI sL sT x hx
    simp at hx
  | cons it rest ih =>
    intro sI sL sT x hxl hxout
    simp only [dedupGo] at hxout ⊢
    by_cases hcond : (normIdKey it ≠ "" ∧ normIdKey it ∈ sI)
        ∨ (normLinkKey it ≠ "" ∧ normLinkKey it ∈ sL)
        ∨ (normTitleKey it ≠ "" ∧ normTitleKey it ∈ sT)
    · rw [if_pos hcond] at hxout ⊢
      rcases List.mem_cons.mp hxl with rfl | hx'
      · exact Or.inr hcond
      · exact ih _ _ _ x hx' hxout
    · rw [if_neg hcond] at hxout ⊢
      have hxne : x ≠ it := fun he => hxout (he ▸ List.mem_cons_self _ _)
      rcases List.mem_cons.mp hxl with rfl | hx'
      · exact absurd rfl hxne
      · have hxrec : x ∉ dedupGo _ _ _ rest := fun hm => hxout (List.mem_cons_of_mem _ hm)
        rcases ih _ _ _ x hx' hxrec with ⟨y, hy, hs⟩ | hkey | hkey | hkey
        · exact Or.inl ⟨y, List.mem_cons_of_mem _ hy, hs⟩
        · by_cases h0 : normIdKey it = ""
          · rw [if_pos h0] at hkey
            exact Or.inr (Or.inl hkey)
          · rw [if_neg h0] at hkey
            rcases List.mem_cons.mp hkey.2 with heq | hmem
            · exact Or.inl ⟨it, List.mem_cons_self _ _, Or.inl ⟨h0, heq.symm⟩⟩
            · exact Or.inr (Or.inl ⟨hkey.1, hmem⟩)
        · by_cases h0 : normLinkKey it = ""
          · rw [if_pos h0] at hkey
            exact Or.inr (Or.inr (Or.inl hkey))
          · rw [if_neg h0] at hkey
            rcases List.mem_cons.mp hkey.2 with heq | hmem
            · exact Or.inl ⟨it, List.mem_cons_self _ _, Or.inr (Or.inl ⟨h0, heq.symm⟩)⟩
            · exact Or.inr (Or.inr (Or.inl ⟨hkey.1, hmem⟩))
        · by_cases h0 : normTitleKey it = ""
          · rw [if_pos h0] at hkey
            exact Or.inr (Or.inr (Or.inr hkey))
          · rw [if_neg h0] at hkey
            rcases List.mem_cons.mp hkey.2 with heq | hmem
            · exact Or.inl ⟨it, List.mem_cons_self _ _, Or.inr (Or.inr ⟨h0, heq.symm⟩)⟩
            · exact Or.inr (Or.inr (Or.inr ⟨hkey.1, hmem⟩))

/-- Claim C4 (spec-modelled Deduplicator): no two output records share a
non-empty identifier, a non-empty link, or a non-empty normalized title; the
output preserves arrival order as a sublist of the input (so the first
occurrence survives); and every dropped record shares a normalized key with
some kept record. -/
theorem dedup_spec (l : List Item) :
    (dedup l).Pairwise (fun a b => ¬ sharesKey a b)
      ∧ (dedup l).Sublist l
      ∧ (∀ x ∈ l, x ∉ dedup l → ∃ y ∈ dedup l, sharesNormKey y x) := by
  refine ⟨?_, dedupGo_sublist l [] [] [], ?_⟩
  · exact (dedupGo_pairwise l [] [] []).imp
      (fun h hs => h (sharesKey_imp_sharesNorm _ _ hs))
  · intro x hx hxo
    rcases dedupGo_dropped l [] [] [] x hx hxo with h | ⟨_, h⟩ | ⟨_, h⟩ | ⟨_, h⟩
    · exact h
    · cases h
    · cases h
    · cases h

/-- Witness for claim C4: two records sharing a link — the first survives,
the second is dropped and shares a key with the survivor. -/
theorem dedup_spec_witness :
    dupB ∈ [dupA, dupB] ∧ dupB ∉ dedup [dupA, dupB]
      ∧ ∃ y ∈ dedup [dupA, dupB], sharesNormKey y dupB :=
  ⟨by decide, by decide, (dedup_spec [dupA, dupB]).2.2 dupB (by decide) (by decide)⟩

/-! ## Claim C9 -/

theorem takeWhile_append_not (p : Char → Bool) (ds : List Char) (c : Char)
    (tl : List Char) (hall : ∀ x ∈ ds, p x = true) (hc : p c = false) :
    (ds ++ c :: tl).takeWhile p = ds ∧ (ds ++ c :: tl).dropWhile p = c :: tl := by
  induction ds with
  | nil =>
    constructor
    · simp [List.takeWhile_cons, hc]
    · simp [List.dropWhile_cons, hc]
  | cons a as ih =>
    have ha : p a = true := hall a (List.mem_cons_self _ _)
    have hih := ih (fun x hx => hall x (List.mem_cons_of_mem _ hx))
    constructor
    · simp [List.takeWhile_cons, ha, hih.1]
    · simp [List.dropWhile_cons, ha, hih.2]

theorem shrinkGo_eq (rl : List Char) : ∀ (nxt : Option Char) (out : List Char),
    shrinkGo rl nxt = some out → out ≠ [] ∧ ∃ dropped, rl = dropped ++ out.reverse := by
  induction rl with
  | nil =>
    intro nxt out h
    simp [shrinkGo] at h
  | cons c restRev ih =>
    intro nxt out h
    simp only [shrinkGo] at h
    split at h
    · cases h
      refine ⟨by simp, [], by simp⟩
    · obtain ⟨hne, dropped, hdr⟩ := ih _ _ h
      exact ⟨hne, c :: dropped, by simp [hdr]⟩

/-- A successful `shrinkBody` yields a nonempty prefix of the run. -/
theorem shrinkBody_eq (run : List Char) (next : Option Char) (body : List Char)
    (h : shrinkBody run next = some body) :
    body ≠ [] ∧ ∃ dropped, run = body ++ dropped := by
  obtain ⟨hne, dropped, hdr⟩ := shrinkGo_eq run.reverse next body h
  refine ⟨hne, dropped.reverse, ?_⟩
  have := congrArg List.reverse hdr
  simpa using this

/-- A successful `matchSlash` pins down the shape of `after` and of the
returned match. -/
theorem matchSlash_some (ds after m : List Char) (h : matchSlash ds after = some m) :
    ∃ rest3 body, after = '/' :: rest3
      ∧ shrinkBody (rest3.takeWhile doiBodyChar)
          ((rest3.dropWhile doiBodyChar).head?) = some body
      ∧ m = '1' :: '0' :: '.' :: (ds ++ '/' :: body) := by
  unfold matchSlash at h
  split at h
  · next rest3 =>
    split at h
    · next body hshrink =>
      cases h
      exact ⟨rest3, body, rfl, hshrink, rfl⟩
    · cases h
  · cases h

/-- A match at a position is a prefix of the text there and has the
canonical DOI shape. -/
theorem matchAt_some (prev : Option Char) (l m : List Char)
    (h : matchAt prev l = some m) :
    (∃ post, l = m ++ post) ∧ isDoiShape m = true := by
  unfold matchAt at h
  split at h
  case _ rest =>
    split at h
    · unfold matchDigits at h
      split at h
      · next hlen =>
        obtain ⟨rest3, body, hdrop, hshrink, hm⟩ := matchSlash_some _ _ _ h
        subst hm
        obtain ⟨hbne, dropped, hrun⟩ := shrinkBody_eq _ _ _ hshrink
        have hdall : ∀ x ∈ rest.takeWhile isDigitC, isDigitC x = true :=
          fun x hx => List.mem_takeWhile_imp hx
        have hball : ∀ x ∈ body, doiBodyChar x = true := by
          intro x hx
          have hx' : x ∈ rest3.takeWhile doiBodyChar := by
            rw [hrun]
            exact List.mem_append_left _ hx
          exact List.mem_takeWhile_imp hx'
        have h1 : rest.takeWhile isDigitC ++ '/' :: rest3 = rest := by
          have h0 := List.takeWhile_append_dropWhile isDigitC rest
          rwa [hdrop] at h0
        have h2 : (body ++ dropped) ++ rest3.dropWhile doiBodyChar = rest3 := by
          have h0 := List.takeWhile_append_dropWhile doiBodyChar rest3
          rwa [hrun] at h0
        constructor
        · refine ⟨dropped ++ rest3.dropWhile doiBodyChar, ?_⟩
          calc '1' :: '0' :: '.' :: rest
              = '1' :: '0' :: '.' :: (rest.takeWhile isDigitC ++ '/' :: rest3) := by
                rw [h1]
            _ = '1' :: '0' :: '.' :: (rest.takeWhile isDigitC
                  ++ '/' :: ((body ++ dropped) ++ rest3.dropWhile doiBodyChar)) := by
                rw [h2]
            _ = '1' :: '0' :: '.' :: (rest.takeWhile isDigitC ++ '/' :: body)
                  ++ (dropped ++ rest3.dropWhile doiBodyChar) := by
                simp [List.append_assoc]
        · have hsplit := takeWhile_append_not isDigitC (rest.takeWhile isDigitC)
            '/' body hdall (by rfl)
          simp only [isDoiShape, hsplit.1, hsplit.2]
          have hall : body.all doiBodyChar = true := List.all_eq_true.mpr hball
          simp [hlen.1, hlen.2, hbne, hall]
      · cases h
    · cases h
  case _ => cases h

/-- A successful search yields an infix of the text with the canonical DOI
shape. -/
theorem doiSearchL_some (l : List Char) : ∀ (prev : Option Char) (m : List Char),
    doiSearchL prev l = some m →
    (∃ pre post, l = pre ++ (m ++ post)) ∧ isDoiShape m = true := by
  induction l with
  | nil =>
    intro prev m h
    simp [doiSearchL] at h
  | cons c rest ih =>
    intro prev m h
    simp only [doiSearchL] at h
    cases hma : matchAt prev (c :: rest) with
    | some mm =>
      simp only [hma] at h
      cases h
      obtain ⟨⟨post, hpost⟩, hshape⟩ := matchAt_some prev (c :: rest) _ hma
      exact ⟨⟨[], post, by simpa using hpost⟩, hshape⟩
    | none =>
      simp only [hma] at h
      obtain ⟨⟨pre, post, hp⟩, hs⟩ := ih _ _ h
      exact ⟨⟨c :: pre, post, by simp [hp]⟩, hs⟩

theorem firstMatch_none_iff (cs : List String) :
    firstMatch cs = none ↔ ∀ c ∈ cs, doiSearch c = none := by
  induction cs with
  | nil => simp [firstMatch]
  | cons c rest ih =>
    simp only [firstMatch]
    constructor
    · intro h
      split at h
      · cases h
      · next hnone =>
        intro c' hc'
        rcases List.mem_cons.mp hc' with rfl | h'
        · exact hnone
        · exact ih.mp h c' h'
    · intro h
      rw [h c (List.mem_cons_self _ _)]
      exact ih.mpr (fun c' hc' => h c' (List.mem_cons_of_mem _ hc'))

theorem firstMatch_some (cs : List String) : ∀ d, firstMatch cs = some d →
    ∃ l₁ c l₂, cs = l₁ ++ c :: l₂ ∧ (∀ c' ∈ l₁, doiSearch c' = none)
      ∧ doiSearch c = some d := by
  induction cs with
  | nil =>
    intro d h
    simp [firstMatch] at h
  | cons c rest ih =>
    intro d h
    simp only [firstMatch] at h
    split at h
    · next hc =>
      cases h
      exact ⟨[], c, rest, rfl, by simp, hc⟩
    · next hc =>
      obtain ⟨l₁, c', l₂, hcs, hnone, hsome⟩ := ih d h
      refine ⟨c :: l₁, c', l₂, by simp [hcs], ?_, hsome⟩
      intro x hx
      rcases List.mem_cons.mp hx with rfl | hx'
      · exact hc
      · exact hnone x hx'

/-- Claim C9: `extract_doi` returns none iff no single candidate contains a
DOI match; and a returned identifier is the leftmost match of the first
matching candidate — in the fixed candidate order (explicit fields, links,
id/guid) — is a contiguous substring of that candidate (case preserved,
never assembled across candidates), and has the canonical DOI shape. -/
theorem extract_doi_spec (e : Entry) :
    (extract_doi e = none ↔ ∀ c ∈ candidates e, doiSearch c = none)
      ∧ (∀ d, extract_doi e = some d →
          ∃ l₁ c l₂, candidates e = l₁ ++ c :: l₂
            ∧ (∀ c' ∈ l₁, doiSearch c' = none)
            ∧ doiSearch c = some d
            ∧ (∃ pre post, c.toList = pre ++ (d.toList ++ post))
            ∧ isDoiShape d.toList = true) := by
  constructor
  · exact firstMatch_none_iff (candidates e)
  · intro d h
    obtain ⟨l₁, c, l₂, hcs, hnone, hsome⟩ := firstMatch_some (candidates e) d h
    refine ⟨l₁, c, l₂, hcs, hnone, hsome, ?_⟩
    simp only [doiSearch, Option.map_eq_some'] at hsome
    obtain ⟨m, hm, hd⟩ := hsome
    obtain ⟨⟨pre, post, hp⟩, hs⟩ := doiSearchL_some c.toList none m hm
    subst hd
    exact ⟨⟨pre, post, hp⟩, hs⟩

/-- Witness for claim C9 at a feed entry whose `doi` field embeds a
mixed-case identifier with a trailing dot. -/
theorem extract_doi_spec_witness :
    extract_doi entryW = some "10.1234/AbC.x"
      ∧ ∃ l₁ c l₂, candidates entryW = l₁ ++ c :: l₂
          ∧ (∀ c' ∈ l₁, doiSearch c' = none)
          ∧ doiSearch c = some "10.1234/AbC.x"
          ∧ (∃ pre post, c.toList = pre ++ (("10.1234/AbC.x").toList ++ post))
          ∧ isDoiShape ("10.1234/AbC.x").toList = true :=
  ⟨by rfl, (extract_doi_spec entryW).2 "10.1234/AbC.x" (by rfl)⟩

/-! ## Claim C6: scanner lemmas -/

theorem stO_idem (st : TagSt) : stO (stO st) = stO st := by
  cases st <;> rfl

theorem stepOther {c : Char} (hc1 : c ≠ '<') (hc2 : c ≠ '>') (st : TagSt) :
    tagStep st c = stO st ∧ tagAcc st c = false := by
  cases st <;> simp [tagStep, tagAcc, stO, hc1, hc2]

theorem tagScan_append (a : List Char) : ∀ (st : TagSt) (b : List Char),
    tagScan st (a ++ b) = (tagScan st a || tagScan (scanEnd st a) b) := by
  induction a with
  | nil => intro st b; simp [tagScan, scanEnd]
  | cons c as ih =>
    intro st b
    simp only [List.cons_append, tagScan, scanEnd, List.append_eq, ih, Bool.or_assoc]

theorem scanNoGt : ∀ (l : List Char), '>' ∉ l → ∀ st, tagScan st l = false := by
  intro l
  induction l with
  | nil => intro _ st; simp [tagScan]
  | cons c rest ih =>
    intro h st
    have hc : c ≠ '>' := fun he => h (he ▸ List.mem_cons_self _ _)
    have hrest : '>' ∉ rest := fun hm => h (List.mem_cons_of_mem _ hm)
    have hacc : tagAcc st c = false := by
      cases st <;> simp [tagAcc, hc]
    simp only [tagScan, hacc, Bool.false_or]
    exact ih hrest _

theorem tagScan_D_iff : ∀ (l : List Char), tagScan .D l = true ↔ '>' ∈ l := by
  intro l
  induction l with
  | nil => simp [tagScan]
  | cons c rest ih =>
    by_cases hc : c = '>'
    · subst hc
      simp [tagScan, tagAcc]
    · have hacc : tagAcc .D c = false := by simp [tagAcc, hc]
      have hstep : tagStep .D c = .D := rfl
      simp only [tagScan, hacc, hstep, Bool.false_or, ih, List.mem_cons]
      constructor
      · exact Or.inr
      · rintro (he | hm)
        · exact absurd he.symm hc
        · exact hm

theorem hasTag_nil : ¬ HasTag [] := by
  rintro ⟨a, g, b, he, -, -⟩
  exact absurd he.symm (by simp)

theorem hasTag_gt_mem {l : List Char} (h : HasTag l) : '>' ∈ l := by
  obtain ⟨a, g, b, rfl, -, -⟩ := h
  simp

theorem hasTag_cons {c : Char} (hc : c ≠ '<') (l : List Char) :
    HasTag (c :: l) ↔ HasTag l := by
  constructor
  · rintro ⟨a, g, b, he, hg, hng⟩
    cases a with
    | nil =>
      injection he with h1 h2
      exact absurd h1 hc
    | cons a0 as =>
      injection he with h1 h2
      exact ⟨as, g, b, h2, hg, hng⟩
  · rintro ⟨a, g, b, he, hg, hng⟩
    exact ⟨c :: a, g, b, by rw [he]; rfl, hg, hng⟩

theorem hasTag_cons_lt (l : List Char) :
    HasTag ('<' :: l) ↔ (∃ g b, l = g ++ '>' :: b ∧ g ≠ [] ∧ '>' ∉ g) ∨ HasTag l := by
  constructor
  · rintro ⟨a, g, b, he, hg, hng⟩
    cases a with
    | nil =>
      injection he with h1 h2
      exact Or.inl ⟨g, b, h2, hg, hng⟩
    | cons a0 as =>
      injection he with h1 h2
      exact Or.inr ⟨as, g, b, h2, hg, hng⟩
  · rintro (⟨g, b, he, hg, hng⟩ | ⟨a, g, b, he, hg, hng⟩)
    · exact ⟨[], g, b, by rw [he]; rfl, hg, hng⟩
    · exact ⟨'<' :: a, g, b, by rw [he]; rfl, hg, hng⟩

theorem firstSplit {x : Char} : ∀ (l : List Char), x ∈ l →
    ∃ g b, l = g ++ x :: b ∧ x ∉ g := by
  intro l
  induction l with
  | nil => intro h; cases h
  | cons c rest ih =>
    intro h
    by_cases hc : c = x
    · subst hc
      exact ⟨[], rest, rfl, by simp⟩
    · have hm : x ∈ rest := by
        rcases List.mem_cons.mp h with he | hm
        · exact absurd he.symm hc
        · exact hm
      obtain ⟨g, b, he, hng⟩ := ih hm
      refine ⟨c :: g, b, by rw [he]; rfl, ?_⟩
      intro hx
      rcases List.mem_cons.mp hx with he | hx'
      · exact hc he.symm
      · exact hng hx'

theorem exPre {c : Char} (hc : c ≠ '>') (l : List Char) :
    (∃ g b, c :: l = g ++ '>' :: b ∧ g ≠ [] ∧ '>' ∉ g) ↔ '>' ∈ l := by
  constructor
  · rintro ⟨g, b, he, hg, hng⟩
    cases g with
    | nil => exact absurd rfl hg
    | cons g0 gs =>
      injection he with h1 h2
      rw [h2]
      simp
  · intro hm
    obtain ⟨g, b, he, hng⟩ := firstSplit l hm
    refine ⟨c :: g, b, by rw [he]; rfl, by simp, ?_⟩
    intro hx
    rcases List.mem_cons.mp hx with he' | hx'
    · exact hc he'.symm
    · exact hng hx'

/-- The scanner characterizations: from `S`, acceptance is exactly "contains
a tag"; from `P` (a `'<'` pending), also a completion `g ++ '>' :: b` with
nonempty `'>'`-free `g` counts. -/
theorem tagScan_SP : ∀ (l : List Char),
    (tagScan .S l = true ↔ HasTag l)
      ∧ (tagScan .P l = true
          ↔ ((∃ g b, l = g ++ '>' :: b ∧ g ≠ [] ∧ '>' ∉ g) ∨ HasTag l)) := by
  intro l
  induction l with
  | nil =>
    constructor
    · simp only [tagScan]
      constructor
      · intro h; cases h
      · intro h; exact absurd h hasTag_nil
    · simp only [tagScan]
      constructor
      · intro h; cases h
      · rintro (⟨g, b, he, hg, -⟩ | h)
        · cases g with
          | nil => exact absurd rfl hg
          | cons g0 gs => exact absurd he.symm (by simp)
        · exact absurd h hasTag_nil
  | cons c rest ih =>
    constructor
    · by_cases hc : c = '<'
      · subst hc
        have hst : tagScan .S ('<' :: rest) = tagScan .P rest := by
          simp [tagScan, tagAcc, tagStep]
        rw [hst, ih.2, hasTag_cons_lt]
      · have hst : tagScan .S (c :: rest) = tagScan .S rest := by
          simp [tagScan, tagAcc, tagStep, hc]
        rw [hst, ih.1, hasTag_cons hc]
    · by_cases hc : c = '>'
      · subst hc
        have hst : tagScan .P ('>' :: rest) = tagScan .S rest := by
          simp [tagScan, tagAcc, tagStep]
        rw [hst, ih.1]
        constructor
        · intro h
          exact Or.inr ((hasTag_cons (by decide) rest).mpr h)
        · rintro (⟨g, b, he, hg, hng⟩ | h)
          · cases g with
            | nil => exact absurd rfl hg
            | cons g0 gs =>
              injection he with h1 h2
              exact absurd (h1 ▸ List.mem_cons_self g0 gs) hng
          · exact (hasTag_cons (by decide) rest).mp h
      · have hst : tagScan .P (c :: rest) = tagScan .D rest := by
          simp [tagScan, tagAcc, tagStep, hc]
        rw [hst, tagScan_D_iff]
        constructor
        · intro h
          exact Or.inl ((exPre hc rest).mpr h)
        · rintro (h | h)
          · exact (exPre hc rest).mp h
          · have := hasTag_gt_mem h
            rcases List.mem_cons.mp this with he | hm
            · exact absurd he.symm hc
            · exact hm

/-- `D` is absorbing for non-`'>'` characters and accepts more than `P` or
`S`: a scan that fails from `stO st` also fails from `st`. -/
theorem tagScan_mono (st : TagSt) (l : List Char)
    (h : tagScan (stO st) l = false) : tagScan st l = false := by
  cases st
  · exact h
  · by_cases hp : tagScan .P l = true
    · exfalso
      have hmem : '>' ∈ l := by
        rcases (tagScan_SP l).2.mp hp with hex | ht
        · rcases hex with ⟨g, b, rfl, -, -⟩
          simp
        · exact hasTag_gt_mem ht
      have : tagScan .D l = true := (tagScan_D_iff l).mpr hmem
      rw [show stO .P = .D from rfl] at h
      rw [h] at this
      cases this
    · exact Bool.not_eq_true _ ▸ Bool.of_not_eq_true hp
  · exact h

/-! ## Claim C6: no pass of `strip_xml_tags` can introduce a tag -/

theorem scanOther : ∀ (r : List Char), (∀ c ∈ r, c ≠ '<' ∧ c ≠ '>') → r ≠ [] →
    ∀ (st : TagSt) (tl : List Char), tagScan st (r ++ tl) = tagScan (stO st) tl := by
  intro r
  induction r with
  | nil => intro _ hne; exact absurd rfl hne
  | cons c rs ih =>
    intro hall _ st tl
    have hc := hall c (List.mem_cons_self _ _)
    obtain ⟨hstep, hacc⟩ := stepOther hc.1 hc.2 st
    cases rs with
    | nil => simp [tagScan, hacc, hstep]
    | cons c2 rs2 =>
      have h2 := ih (fun x hx => hall x (List.mem_cons_of_mem _ hx)) (by simp)
        (stO st) tl
      calc tagScan st ((c :: c2 :: rs2) ++ tl)
          = tagScan (stO st) ((c2 :: rs2) ++ tl) := by
            simp [tagScan, hacc, hstep]
        _ = tagScan (stO (stO st)) tl := h2
        _ = tagScan (stO st) tl := by rw [stO_idem]

/-- Scanning a run of non-`'<'` non-`'>'` characters from `S` accepts
nothing and ends in `S`. -/
theorem scanOtherS : ∀ (r : List Char), (∀ c ∈ r, c ≠ '<' ∧ c ≠ '>') →
    tagScan .S r = false ∧ scanEnd .S r = .S := by
  intro r
  induction r with
  | nil => intro _; exact ⟨rfl, rfl⟩
  | cons c rs ih =>
    intro hall
    have hc := hall c (List.mem_cons_self _ _)
    obtain ⟨hstep, hacc⟩ := stepOther hc.1 hc.2 .S
    have hih := ih (fun x hx => hall x (List.mem_cons_of_mem _ hx))
    constructor
    · simp only [tagScan, hacc, Bool.false_or, hstep]
      exact hih.1
    · simp only [scanEnd, hstep]
      exact hih.2

theorem splitGt_no_gt : ∀ (l : List Char), ∀ seg ∈ splitGt l, '>' ∉ seg := by
  intro l
  induction l with
  | nil =>
    intro seg hseg
    simp only [splitGt, List.mem_singleton] at hseg
    simp [hseg]
  | cons c rest ih =>
    intro seg hseg
    simp only [splitGt] at hseg
    split at hseg
    · next hc =>
      rcases List.mem_cons.mp hseg with rfl | hm
      · simp
      · exact ih seg hm
    · next hc =>
      cases hs : splitGt rest with
      | nil => rw [hs] at hseg; cases hseg
      | cons h0 t0 =>
        rw [hs, List.modifyHead] at hseg
        rcases List.mem_cons.mp hseg with rfl | hm
        · intro hx
          rcases List.mem_cons.mp hx with he | hx'
          · exact hc he.symm
          · exact ih h0 (hs ▸ List.mem_cons_self _ _) hx'
        · exact ih seg (hs ▸ List.mem_cons_of_mem _ hm)

/-- One processed segment accepts nothing from `S` and ends back in `S`. -/
theorem procSeg_scan (repl : List Char) (hrepl : ∀ c ∈ repl, c ≠ '<' ∧ c ≠ '>') :
    ∀ (seg : List Char), '>' ∉ seg →
    tagScan .S (procSeg repl seg) = false ∧ scanEnd .S (procSeg repl seg) = .S := by
  intro seg
  induction seg with
  | nil => intro _; exact ⟨rfl, rfl⟩
  | cons c cs ih =>
    intro hseg
    have hc : c ≠ '>' := fun he => hseg (he ▸ List.mem_cons_self _ _)
    have hcs : '>' ∉ cs := fun hm => hseg (List.mem_cons_of_mem _ hm)
    by_cases hlt : c = '<'
    · subst hlt
      cases cs with
      | nil =>
        refine ⟨?_, ?_⟩
        · show tagScan .S ['<', '>'] = false
          rfl
        · show scanEnd .S ['<', '>'] = .S
          rfl
      | cons c2 cs2 =>
        simp only [procSeg, if_pos rfl]
        exact scanOtherS repl hrepl
    · have hih := ih hcs
      simp only [procSeg, if_neg hlt]
      have hstep : tagStep .S c = .S := by simp [tagStep, hlt]
      constructor
      · simp only [tagScan, tagAcc, Bool.false_or, hstep]
        exact hih.1
      · simp only [scanEnd, hstep]
        exact hih.2

theorem joinSegs_scan (repl : List Char) (hrepl : ∀ c ∈ repl, c ≠ '<' ∧ c ≠ '>') :
    ∀ (segs : List (List Char)), (∀ seg ∈ segs, '>' ∉ seg) →
    tagScan .S (joinSegs repl segs) = false := by
  intro segs
  induction segs with
  | nil => intro _; rfl
  | cons seg rest ih =>
    intro hall
    cases rest with
    | nil =>
      exact scanNoGt seg (hall seg (List.mem_cons_self _ _)) .S
    | cons s2 rs2 =>
      have hseg := hall seg (List.mem_cons_self _ _)
      have hps := procSeg_scan repl hrepl seg hseg
      show tagScan .S (procSeg repl seg ++ joinSegs repl (s2 :: rs2)) = false
      rw [tagScan_append, hps.1, hps.2, Bool.false_or]
      exact ih (fun s hs => hall s (List.mem_cons_of_mem _ hs))

/-- The tag-removal pass leaves no tag behind. -/
theorem scan_removeTags (repl : List Char) (hrepl : ∀ c ∈ repl, c ≠ '<' ∧ c ≠ '>')
    (l : List Char) : tagScan .S (removeTags repl l) = false :=
  joinSegs_scan repl hrepl (splitGt l) (splitGt_no_gt l)

theorem jatsClassChar_ne {x : Char} (h : jatsClassChar x = true) :
    x ≠ '<' ∧ x ≠ '>' := by
  constructor <;> rintro rfl <;> exact absurd h (by decide)

/-- A jats-token match is nonempty, fits in the text, and consists only of
non-`'<'` non-`'>'` characters. -/
theorem jatsMatchLen_facts (prev : Option Char) (l : List Char) (n : Nat)
    (h : jatsMatchLen prev l = some n) :
    1 ≤ n ∧ n ≤ l.length ∧ ∀ x ∈ l.take n, x ≠ '<' ∧ x ≠ '>' := by
  unfold jatsMatchLen at h
  split at h
  case _ j rest =>
    split at h
    · next hcond =>
      split at h
      · next body hshrink =>
        cases h
        obtain ⟨hbne, dropped, hrun⟩ := shrinkBody_eq _ _ _ hshrink
        have hjc : j = 'j' ∨ j = 'J' := by
          have h' : (j = 'j' ∨ j = 'J') ∧ bdryBefore prev = true := by
            simpa using hcond
          exact h'.1
        have hblen : body.length ≤ (rest.takeWhile jatsClassChar).length := by
          rw [hrun, List.length_append]
          omega
        have hrlen : (rest.takeWhile jatsClassChar).length ≤ rest.length := by
          have h0 := congrArg List.length
            (List.takeWhile_append_dropWhile jatsClassChar rest)
          rw [List.length_append] at h0
          omega
        refine ⟨by omega, by simp; omega, ?_⟩
        have htake : (j :: 'a' :: 't' :: 's' :: ':' :: rest).take (5 + body.length)
            = j :: 'a' :: 't' :: 's' :: ':' :: rest.take body.length := by
          have h5 : 5 + body.length = (((((body.length).succ).succ).succ).succ).succ := by
            omega
          rw [h5]
          simp [List.take_succ_cons]
        have hrest_take : rest.take body.length = body := by
          have hr : rest = body ++ (dropped ++ rest.dropWhile jatsClassChar) := by
            have h0 := List.takeWhile_append_dropWhile jatsClassChar rest
            rw [hrun] at h0
            rw [← List.append_assoc]
            exact h0.symm
          rw [hr, List.take_append_eq_append_take, List.take_length,
            Nat.sub_self, List.take_zero, List.append_nil]
        intro x hx
        rw [htake, hrest_take] at hx
        rcases List.mem_cons.mp hx with rfl | hx
        · rcases hjc with rfl | rfl <;> exact ⟨by decide, by decide⟩
        · rcases List.mem_cons.mp hx with rfl | hx
          · exact ⟨by decide, by decide⟩
          · rcases List.mem_cons.mp hx with rfl | hx
            · exact ⟨by decide, by decide⟩
            · rcases List.mem_cons.mp hx with rfl | hx
              · exact ⟨by decide, by decide⟩
              · rcases List.mem_cons.mp hx with rfl | hx
                · exact ⟨by decide, by decide⟩
                · have hmem : x ∈ rest.takeWhile jatsClassChar := by
                    rw [hrun]
                    exact List.mem_append_left _ hx
                  exact jatsClassChar_ne (List.mem_takeWhile_imp hmem)
      · cases h
    · cases h
  case _ => cases h

/-- The jats-token pass preserves tag-freedom. -/
theorem scanJatsF : ∀ (fuel : Nat) (prev : Option Char) (l : List Char) (st : TagSt),
    l.length ≤ fuel → tagScan st l = false → tagScan st (jatsSubF fuel prev l) = false := by
  intro fuel
  induction fuel with
  | zero =>
    intro prev l st hlen _
    cases l with
    | nil => rfl
    | cons c rest => simp at hlen
  | succ f ih =>
    intro prev l st hlen h
    cases l with
    | nil => rfl
    | cons c rest =>
      cases hm : jatsMatchLen prev (c :: rest) with
      | none =>
        simp only [jatsSubF, hm]
        simp only [tagScan] at h ⊢
        rcases Bool.or_eq_false_iff.mp h with ⟨hacc, hrest⟩
        rw [hacc, Bool.false_or]
        have : rest.length ≤ f := by
          simp at hlen
          omega
        exact ih (some c) rest _ this hrest
      | some n =>
        obtain ⟨h1, hle, hother⟩ := jatsMatchLen_facts prev (c :: rest) n hm
        have htne : (c :: rest).take n ≠ [] := by
          intro he
          have hl0 : ((c :: rest).take n).length = 0 := by rw [he]; rfl
          rw [List.length_take] at hl0
          simp at hl0
          omega
        have h' : tagScan st ((c :: rest).take n ++ (c :: rest).drop n) = false := by
          rw [List.take_append_drop]
          exact h
        rw [scanOther ((c :: rest).take n) hother htne] at h'
        simp only [jatsSubF, hm]
        simp only [tagScan]
        obtain ⟨hstep, hacc⟩ := stepOther (c := ' ') (by decide) (by decide) st
        rw [hacc, hstep, Bool.false_or]
        have hdlen : ((c :: rest).drop n).length ≤ f := by
          rw [List.length_drop]
          simp at hlen ⊢
          omega
        exact ih _ _ _ hdlen h'

theorem wsChar_ne {c : Char} (h : wsChar c = true) : c ≠ '<' ∧ c ≠ '>' := by
  constructor <;> rintro rfl <;> exact absurd h (by decide)

/-- Whitespace collapsing preserves tag-freedom. -/
theorem scanCollapse : ∀ (l : List Char) (st : TagSt) (b : Bool),
    tagScan st l = false → tagScan st (collapseGo b l) = false := by
  intro l
  induction l with
  | nil =>
    intro st b _
    rfl
  | cons c rest ih =>
    intro st b h
    simp only [tagScan] at h
    rcases Bool.or_eq_false_iff.mp h with ⟨hacc, hrest⟩
    by_cases hw : wsChar c = true
    · have hws := wsChar_ne hw
      have hstep : tagStep st c = stO st := (stepOther hws.1 hws.2 st).1
      rw [hstep] at hrest
      simp only [collapseGo, hw, if_true]
      by_cases hb : b
      · rw [if_pos hb]
        exact tagScan_mono st _ (ih (stO st) true hrest)
      · rw [if_neg hb]
        simp only [tagScan]
        obtain ⟨hstep', hacc'⟩ := stepOther (c := ' ') (by decide) (by decide) st
        rw [hacc', hstep', Bool.false_or]
        exact ih (stO st) true hrest
    · simp only [collapseGo, hw, if_false]
      simp only [tagScan, hacc, Bool.false_or]
      exact ih (tagStep st c) false hrest

/-- Stripping the ends preserves tag-freedom. -/
theorem scanStrip (l : List Char) (h : tagScan .S l = false) :
    tagScan .S (pyStrip l) = false := by
  have hdrop : tagScan .S (l.dropWhile wsChar) = false := by
    cases ht : l.takeWhile wsChar with
    | nil =>
      have h0 := List.takeWhile_append_dropWhile wsChar l
      rw [ht, List.nil_append] at h0
      rwa [h0]
    | cons t0 ts =>
      have hall : ∀ c ∈ l.takeWhile wsChar, c ≠ '<' ∧ c ≠ '>' :=
        fun c hc => wsChar_ne (List.mem_takeWhile_imp hc)
      have h' : tagScan .S (l.takeWhile wsChar ++ l.dropWhile wsChar) = false := by
        rw [List.takeWhile_append_dropWhile]
        exact h
      rw [scanOther (l.takeWhile wsChar) hall (by rw [ht]; simp)] at h'
      exact h'
  set m := l.dropWhile wsChar
  have hsplit : m = (m.reverse.dropWhile wsChar).reverse
      ++ (m.reverse.takeWhile wsChar).reverse := by
    have h0 := List.takeWhile_append_dropWhile wsChar m.reverse
    have h1 := congrArg List.reverse h0
    rw [List.reverse_append, List.reverse_reverse] at h1
    exact h1.symm
  have h2 : tagScan .S ((m.reverse.dropWhile wsChar).reverse
      ++ (m.reverse.takeWhile wsChar).reverse) = false := by
    rw [← hsplit]
    exact hdrop
  rw [tagScan_append] at h2
  rcases Bool.or_eq_false_iff.mp h2 with ⟨h3, -⟩
  exact h3

/-- The sanitized output of `strip_xml_tags` never contains a markup tag. -/
theorem strip_no_tags_aux (s : String) :
    tagScan .S (strip_xml_tags s).toList = false := by
  show tagScan .S (pyStrip (collapseGo false (jatsSub (removeTags [' '] s.toList)))) = false
  have h1 : tagScan .S (removeTags [' '] s.toList) = false :=
    scan_removeTags [' '] (by intro c hc; simp at hc; subst hc; exact ⟨by decide, by decide⟩) _
  have h2 : tagScan .S (jatsSub (removeTags [' '] s.toList)) = false :=
    scanJatsF _ none _ .S (le_refl _) h1
  have h3 : tagScan .S (collapseGo false (jatsSub (removeTags [' '] s.toList))) = false :=
    scanCollapse _ .S false h2
  exact scanStrip _ h3

/-! ## Claim C6: whitespace passes only reorder whitespace -/

theorem filter_collapseGo : ∀ (l : List Char) (b : Bool),
    (collapseGo b l).filter (fun c => !wsChar c) = l.filter (fun c => !wsChar c) := by
  intro l
  induction l with
  | nil => intro b; rfl
  | cons c rest ih =>
    intro b
    simp only [collapseGo, List.filter_cons]
    by_cases hw : wsChar c = true
    · rw [if_pos hw]
      by_cases hb : b
      · rw [if_pos hb, if_neg (show ¬((!wsChar c) = true) by rw [hw]; decide), ih true]
      · rw [if_neg hb, if_neg (show ¬((!wsChar c) = true) by rw [hw]; decide),
          List.filter_cons, if_neg (by decide), ih true]
    · have hw' : wsChar c = false := by
        revert hw
        cases wsChar c <;> simp
      rw [if_neg hw, if_pos (by rw [hw']; decide), List.filter_cons,
        if_pos (by rw [hw']; decide), ih false]

theorem filter_dropWhile_ws : ∀ (l : List Char),
    ((l.dropWhile wsChar).filter (fun c => !wsChar c))
      = l.filter (fun c => !wsChar c) := by
  intro l
  induction l with
  | nil => rfl
  | cons c rest ih =>
    simp only [List.dropWhile_cons]
    by_cases hw : wsChar c = true
    · rw [if_pos hw, ih, List.filter_cons, if_neg (by rw [hw]; decide)]
    · rw [if_neg hw]

theorem filter_pyStrip (l : List Char) :
    (pyStrip l).filter (fun c => !wsChar c) = l.filter (fun c => !wsChar c) := by
  unfold pyStrip
  rw [List.filter_reverse, filter_dropWhile_ws, List.filter_reverse,
    List.reverse_reverse, filter_dropWhile_ws]

/-! ## Claim C6: the theorems -/

/-- Claim C6, counterexample: the second substitution of `strip_xml_tags`
also deletes `jats:`-prefixed tokens standing outside any tag, so the
sanitized output does not preserve all non-tag characters: on
`"jats:x <b>hi</b>"` the non-whitespace characters of the output differ from
those of the tag-stripped text. -/
theorem strip_xml_tags_loses_nontag_chars :
    HasTag ("jats:x <b>hi</b>").toList
      ∧ ((strip_xml_tags "jats:x <b>hi</b>").toList.filter (fun c => !wsChar c))
          ≠ ((removeTags [' '] ("jats:x <b>hi</b>").toList).filter (fun c => !wsChar c)) := by
  constructor
  · exact (tagScan_SP _).1.mp (by decide)
  · decide

/-- Claim C6 (amended): for every abstract text containing markup tags, the
sanitized output contains no `<...>` sequence; non-tag characters are
preserved in order modulo whitespace collapsing only as long as the
tag-stripped text contains no `jats:`-prefixed token (such tokens are also
deleted); and the concrete scenario holds:
`"<jats:p>Background: Tumor growth.</jats:p>"` sanitizes to
`"Background: Tumor growth."`. -/
theorem strip_xml_tags_spec (s : String) (_h : HasTag s.toList) :
    (¬ HasTag (strip_xml_tags s).toList)
      ∧ (jatsSub (removeTags [' '] s.toList) = removeTags [' '] s.toList →
          ((strip_xml_tags s).toList.filter (fun c => !wsChar c))
            = ((removeTags [' '] s.toList).filter (fun c => !wsChar c)))
      ∧ strip_xml_tags "<jats:p>Background: Tumor growth.</jats:p>"
          = "Background: Tumor growth." := by
  refine ⟨?_, ?_, by decide⟩
  · intro hT
    have ht := (tagScan_SP (strip_xml_tags s).toList).1.mpr hT
    rw [strip_no_tags_aux s] at ht
    cases ht
  · intro hj
    show (pyStrip (collapseGo false (jatsSub (removeTags [' '] s.toList)))).filter
        (fun c => !wsChar c) = _
    rw [hj, filter_pyStrip, filter_collapseGo]

/-- Witness for the amended claim C6 at the spec's concrete abstract. -/
theorem strip_xml_tags_spec_witness :
    (¬ HasTag (strip_xml_tags "<jats:p>Background: Tumor growth.</jats:p>").toList)
      ∧ (jatsSub (removeTags [' '] ("<jats:p>Background: Tumor growth.</jats:p>").toList)
            = removeTags [' '] ("<jats:p>Background: Tumor growth.</jats:p>").toList →
          ((strip_xml_tags "<jats:p>Background: Tumor growth.</jats:p>").toList.filter
              (fun c => !wsChar c))
            = ((removeTags [' '] ("<jats:p>Background: Tumor growth.</jats:p>").toList).filter
                (fun c => !wsChar c)))
      ∧ strip_xml_tags "<jats:p>Background: Tumor growth.</jats:p>"
          = "Background: Tumor growth." :=
  strip_xml_tags_spec "<jats:p>Background: Tumor growth.</jats:p>"
    ((tagScan_SP _).1.mp (by decide))

end SentinelNode
